import Mathlib

set_option autoImplicit false

/-
Verification of the path-transformation engine, schema validator and copy
orchestrator of `organize.py` (alexandre-jung/organize-copy-dir).

The source compiles the input schema into the regular expression
`^\\?g1\g2\...\gn$` with `gi = (?P<keyi>[^\\/]+)`, matches each relative
source path against it, and rebuilds the destination path by joining the
captured values of the output keys with a forward slash.  The embedding
below models the matcher at the level of character lists, the validator as
an `Except`-valued check mirroring the two assertion loops, and the per-file
loop of `main` as a pure fold over an explicit destination tree.
-/

namespace Organize

/-- Character class `[^\\/]` from `organize.py` line 54: a character that may
appear inside one captured path component — anything but a backslash or a
forward slash. -/
def isGroupChar (c : Char) : Bool := !(c == '\\' || c == '/')

/-- Configured input schema, `organize.py` line 10. -/
def defaultInputKeys : List String := ["somePathPart", "name", "year", "fileName"]

/-- Configured output schema, `organize.py` line 11. -/
def defaultOutputKeys : List String := ["year", "somePathPart", "name", "fileName"]

/-- Matcher for the body of the pattern compiled by `getTransformPathFunction`
(`organize.py` lines 53-56): `n` capture groups `([^\\/]+)` joined by a literal
backslash (the joiner `r"\\"`), anchored at both ends.  Returns the captured
components.  Greedy matching of `[^\\/]+` needs no backtracking here because
the pattern character after each group (a backslash, or the end anchor) can
never occur inside a group.  Python's `$` would additionally accept a match
just before one trailing newline, which for this pattern can only make a
difference when `n = 0`; in that case the caller discards the match anyway
because the group dictionary is empty (see `transformFunction`). -/
def matchComponents : Nat → List Char → Option (List (List Char))
  | 0, cs => if cs.isEmpty then some [] else none
  | 1, cs =>
    let comp := cs.takeWhile isGroupChar
    if comp.isEmpty then none
    else if (cs.drop comp.length).isEmpty then some [comp] else none
  | n + 2, cs =>
    let comp := cs.takeWhile isGroupChar
    if comp.isEmpty then none
    else
      match cs.drop comp.length with
      | '\\' :: rest => (matchComponents (n + 1) rest).map (fun l => comp :: l)
      | _ => none

/-- The full compiled pattern `^\\?...$` (`organize.py` line 56): an optional
single leading backslash, then the joined capture groups.  The second
alternative of the greedy `\\?` (leaving a present leading backslash
unconsumed) can never succeed because a capture group cannot start with a
backslash; it is kept to mirror the regex. -/
def matchInputPath (n : Nat) (cs : List Char) : Option (List (List Char)) :=
  match cs with
  | '\\' :: rest => (matchComponents n rest).orElse (fun _ => matchComponents n cs)
  | _ => matchComponents n cs

/-- Join a list of components with a single separator character, as Python's
string `join` does. -/
def joinChar (sep : Char) : List (List Char) → List Char
  | [] => []
  | [l] => l
  | l :: l2 :: rest => l ++ sep :: joinChar sep (l2 :: rest)

/-- `transformFunction` (`organize.py` lines 58-63), at the level of character
lists: match the relative path against the compiled input pattern; on a match,
`match.groupdict()` is the input keys zipped with the captured components, and
the rebuilt path joins the values of those output keys that are present in the
dictionary with a forward slash.  An empty dictionary is falsy in Python, so
the function falls through and returns `None` both when there is no match and
when the input schema is empty. -/
def transformFunction (inputKeys outputKeys : List String) (relativePath : String) :
    Option String :=
  match matchInputPath inputKeys.length relativePath.data with
  | none => none
  | some comps =>
    let parts := inputKeys.zip comps
    if parts.isEmpty then none
    else some (List.asString (joinChar '/' (outputKeys.filterMap (fun key => parts.lookup key))))

/-- The Binding of the data model: the value a segment name captured for one
concrete path — the group dictionary (input keys zipped with the captured
components) looked up at the name. -/
def bindingOf (inputKeys : List String) (comps : List (List Char)) (k : String) :
    List Char :=
  ((inputKeys.zip comps).lookup k).getD []

/-- Python word characters, for the code points this development uses: on the
ASCII range exactly letters, digits and the underscore; on the Latin-1
supplement exactly the code points of Unicode word class (the ordinal
indicators, the micro sign, and the Latin-1 letters 0xC0-0xFF without the
multiplication and division signs).  Code points above U+00FF occur nowhere in
this development; the model returns false for them, an under-approximation of
Python's Unicode-aware `\w`. -/
def isWordChar (c : Char) : Bool :=
  c.isAlphanum || c == '_' ||
    (0x80 ≤ c.toNat &&
      (c.toNat == 0xAA || c.toNat == 0xB5 || c.toNat == 0xBA ||
        (0xC0 ≤ c.toNat && c.toNat ≤ 0xFF && !(c.toNat == 0xD7) && !(c.toNat == 0xF7))))

/-- Drop a single trailing newline, if present.  Python's `$` anchor also
matches just before a final newline, so `re.match` with pattern `^\w+$`
succeeds on a key exactly when the key, after dropping at most one trailing
newline, is a non-empty run of word characters. -/
def stripTrailingNewline (cs : List Char) : List Char :=
  if cs.getLast? = some '\n' then cs.dropLast else cs

/-- Whether `re.match(r"^\w+$", key)` succeeds (`organize.py` lines 16-18 and
26-28). -/
def matchesWordPlus (key : String) : Bool :=
  let t := stripTrailingNewline key.data
  !t.isEmpty && t.all isWordChar

/-- Message of the first assertion of `validateInputKeysConfig`. -/
def invalidInputKeyMsg (key : String) : String :=
  "Error: invalid character in inputKeys (in key " ++ key ++ ")"

/-- Message of the second assertion of `validateInputKeysConfig`. -/
def duplicateInputKeyMsg (key : String) : String :=
  "Error: duplicate key " ++ key ++ " in inputKeys"

/-- Message of the first assertion of `validateOutputKeysConfig`. -/
def invalidOutputKeyMsg (key : String) : String :=
  "Error: invalid character in outputKeys (in key " ++ key ++ ")"

/-- Message of the second assertion of `validateOutputKeysConfig`. -/
def missingOutputKeyMsg (key : String) : String :=
  "Error: " ++ key ++ " does not exist in inputKeys"

/-- The loop of `validateInputKeysConfig` (`organize.py` lines 14-21): for each
key in order, assert that it matches `^\w+$`, then assert that it occurs
exactly once in the whole input key list; the first failing assertion raises. -/
def validateInputKeysAux (inputKeys : List String) : List String → Except String Unit
  | [] => Except.ok ()
  | key :: rest =>
    if !matchesWordPlus key then Except.error (invalidInputKeyMsg key)
    else if inputKeys.count key ≠ 1 then Except.error (duplicateInputKeyMsg key)
    else validateInputKeysAux inputKeys rest

/-- `validateInputKeysConfig` (`organize.py` lines 14-21). -/
def validateInputKeysConfig (inputKeys : List String) : Except String Unit :=
  validateInputKeysAux inputKeys inputKeys

/-- The loop of `validateOutputKeysConfig` (`organize.py` lines 24-29): for
each key in order, assert that it matches `^\w+$`, then assert that it occurs
in the input key list; the first failing assertion raises. -/
def validateOutputKeysAux (inputKeys : List String) : List String → Except String Unit
  | [] => Except.ok ()
  | key :: rest =>
    if !matchesWordPlus key then Except.error (invalidOutputKeyMsg key)
    else if !inputKeys.contains key then Except.error (missingOutputKeyMsg key)
    else validateOutputKeysAux inputKeys rest

/-- `validateOutputKeysConfig` (`organize.py` lines 24-29). -/
def validateOutputKeysConfig (inputKeys outputKeys : List String) : Except String Unit :=
  validateOutputKeysAux inputKeys outputKeys

/-- The startup validation (`organize.py` lines 32-41): input keys first, the
output keys only if the input keys validated. -/
def validateConfig (inputKeys outputKeys : List String) : Except String Unit :=
  match validateInputKeysConfig inputKeys with
  | Except.error e => Except.error e
  | Except.ok _ => validateOutputKeysConfig inputKeys outputKeys

/-- The outcome of processing one file in `main` (`organize.py` lines 97-126). -/
inductive Outcome where
  | copied
  | ignored
  | skipped
  | copyError
deriving DecidableEq

/-- The four counters of `main` (`organize.py` lines 92-95). -/
structure Tally where
  copied : Nat
  ignored : Nat
  skipped : Nat
  errors : Nat
deriving DecidableEq

/-- Increment the one counter that an outcome stands for. -/
def applyTally (o : Outcome) (t : Tally) : Tally :=
  match o with
  | Outcome.copied => { t with copied := t.copied + 1 }
  | Outcome.ignored => { t with ignored := t.ignored + 1 }
  | Outcome.skipped => { t with skipped := t.skipped + 1 }
  | Outcome.copyError => { t with errors := t.errors + 1 }

/-- Sum of the four counters. -/
def sumTally (t : Tally) : Nat := t.copied + t.ignored + t.skipped + t.errors

/-- One source file as the per-file loop of `main` sees it: its path relative
to the source root, its content, and whether the copy operation (`copyFile`,
`organize.py` lines 69-74) would raise an `IOError` or `SameFileError` on it
(an oracle for the environment). -/
structure FileCase where
  relPath : String
  content : String
  copyFails : Bool
deriving DecidableEq

/-- The destination tree: an association of the absolute destination paths
that exist with their content.  Existence as checked by `Path.exists` is
existence of a binding. -/
abbrev DestTree := List (String × String)

/-- The body of the per-file loop of `main` (`organize.py` lines 97-126):
transform the relative path; a falsy result (no match, or an empty rebuilt
path) is ignored; an existing destination is skipped and nothing is written;
otherwise the copy either raises (copy error, destination tree left as the
failed operation left it, which the claims never inspect) or binds the source
content at the destination (copied). -/
def processFile (inputKeys outputKeys : List String) (dstDir : String)
    (fs : DestTree) (f : FileCase) : DestTree × Outcome :=
  match transformFunction inputKeys outputKeys f.relPath with
  | none => (fs, Outcome.ignored)
  | some d =>
    if d.isEmpty then (fs, Outcome.ignored)
    else
      let dest := dstDir ++ "/" ++ d
      if (fs.lookup dest).isSome then (fs, Outcome.skipped)
      else if f.copyFails then (fs, Outcome.copyError)
      else ((dest, f.content) :: fs, Outcome.copied)

/-- The whole loop of `main` over the enumerated files, threading the
destination tree and the tallies. -/
def mainLoop (inputKeys outputKeys : List String) (dstDir : String) :
    List FileCase → DestTree → Tally → DestTree × Tally
  | [], fs, t => (fs, t)
  | f :: rest, fs, t =>
    let p := processFile inputKeys outputKeys dstDir fs f
    mainLoop inputKeys outputKeys dstDir rest p.1 (applyTally p.2 t)

/-- Spec side, for comparison with the matcher compiled from the source: one
path component — non-empty, with no separator character (neither a backslash
nor a forward slash) inside. -/
def specValidComponent (l : List Char) : Prop :=
  l ≠ [] ∧ ∀ c ∈ l, c ≠ '\\' ∧ c ≠ '/'

/-- Spec side: the structural match condition of the claim — the path consists
of exactly `n` non-empty separator-free components joined by the separator of
the matching convention (the backslash), optionally preceded by a single
leading separator. -/
def specStructuralMatch (n : Nat) (path : String) : Prop :=
  ∃ comps : List (List Char), comps.length = n ∧ (∀ l ∈ comps, specValidComponent l) ∧
    (path.data = joinChar '\\' comps ∨ path.data = '\\' :: joinChar '\\' comps)

/-- Spec side: the ASCII identifier characters `[A-Za-z0-9_]` named by the
claim (ASCII letters, digits, underscore). -/
def specAsciiWordChar (c : Char) : Bool := c.isAlphanum || c == '_'

/-- Split a character list on a separator character (used to read the
components back out of a rebuilt destination path). -/
def splitOnChar (sep : Char) : List Char → List (List Char)
  | [] => [[]]
  | c :: rest =>
    match splitOnChar sep rest with
    | [] => [[c]]
    | h :: t => if c = sep then [] :: h :: t else (c :: h) :: t

/-- Replace every forward slash by a backslash: converts a rebuilt destination
path back into the separator convention the matcher expects. -/
def slashesToBackslashes (s : String) : String :=
  List.asString (s.data.map (fun c => if c = '/' then '\\' else c))

/-! ### Lemmas about the compiled matcher -/

theorem isGroupChar_iff (c : Char) : isGroupChar c = true ↔ (c ≠ '\\' ∧ c ≠ '/') := by
  simp [isGroupChar]

theorem isGroupChar_backslash : isGroupChar '\\' = false := rfl

theorem takeWhile_all {p : Char → Bool} {l : List Char} (h : ∀ c ∈ l, p c = true) :
    l.takeWhile p = l := by
  induction l with
  | nil => rfl
  | cons c t ih =>
    simp only [List.takeWhile_cons, h c (List.mem_cons_self c t), if_pos]
    rw [ih (fun x hx => h x (List.mem_cons_of_mem c hx))]

theorem takeWhile_append_not {p : Char → Bool} {l : List Char} (h : ∀ c ∈ l, p c = true)
    {x : Char} (hx : p x = false) (t : List Char) :
    (l ++ x :: t).takeWhile p = l := by
  induction l with
  | nil => simp [List.takeWhile_cons, hx]
  | cons c r ih =>
    simp only [List.cons_append, List.takeWhile_cons, h c (List.mem_cons_self c r), if_pos]
    rw [ih (fun y hy => h y (List.mem_cons_of_mem c hy))]

theorem drop_takeWhile_length (p : Char → Bool) (cs : List Char) :
    cs.drop (cs.takeWhile p).length = cs.dropWhile p := by
  induction cs with
  | nil => rfl
  | cons c t ih =>
    by_cases h : p c
    · simp [List.takeWhile_cons, List.dropWhile_cons, h, ih]
    · simp [List.takeWhile_cons, List.dropWhile_cons, h]

theorem matchComponents_zero (cs : List Char) :
    matchComponents 0 cs = if cs.isEmpty then some [] else none := rfl

theorem matchComponents_one (cs : List Char) :
    matchComponents 1 cs =
      if (cs.takeWhile isGroupChar).isEmpty then none
      else if (cs.drop (cs.takeWhile isGroupChar).length).isEmpty
        then some [cs.takeWhile isGroupChar] else none := rfl

theorem matchComponents_succ_succ (n : Nat) (cs : List Char) :
    matchComponents (n + 2) cs =
      if (cs.takeWhile isGroupChar).isEmpty then none
      else
        match cs.drop (cs.takeWhile isGroupChar).length with
        | '\\' :: rest =>
          (matchComponents (n + 1) rest).map (fun l => cs.takeWhile isGroupChar :: l)
        | _ => none := rfl

theorem matchComponents_backslash (n : Nat) (rest : List Char) :
    matchComponents n ('\\' :: rest) = none := by
  rcases n with _ | _ | m <;> rfl

theorem matchComponents_sound :
    ∀ (n : Nat) (cs : List Char) (comps : List (List Char)),
      matchComponents n cs = some comps →
      comps.length = n ∧ (∀ l ∈ comps, specValidComponent l) ∧ cs = joinChar '\\' comps := by
  intro n
  induction n using Nat.strong_induction_on with
  | _ n ih =>
    intro cs comps h
    match n with
    | 0 =>
      rw [matchComponents_zero] at h
      by_cases hcs : cs.isEmpty
      · rw [if_pos hcs] at h
        obtain rfl : ([] : List (List Char)) = comps := Option.some.inj h
        exact ⟨rfl, by simp, by simpa [joinChar] using List.isEmpty_iff.mp hcs⟩
      · rw [if_neg hcs] at h
        exact absurd h (by simp)
    | 1 =>
      rw [matchComponents_one] at h
      by_cases h1 : (cs.takeWhile isGroupChar).isEmpty
      · rw [if_pos h1] at h
        exact absurd h (by simp)
      · rw [if_neg h1] at h
        by_cases h2 : (cs.drop (cs.takeWhile isGroupChar).length).isEmpty
        · rw [if_pos h2] at h
          obtain rfl : [cs.takeWhile isGroupChar] = comps := Option.some.inj h
          refine ⟨rfl, ?_, ?_⟩
          · intro l hl
            rw [List.mem_singleton] at hl
            subst hl
            refine ⟨fun he => h1 (by simp [he]), fun c hc => ?_⟩
            exact (isGroupChar_iff c).mp (List.mem_takeWhile_imp hc)
          · have hdw : cs.dropWhile isGroupChar = [] := by
              rw [← drop_takeWhile_length isGroupChar cs]
              exact List.isEmpty_iff.mp h2
            conv_lhs => rw [← List.takeWhile_append_dropWhile (p := isGroupChar) (l := cs)]
            rw [hdw]
            simp [joinChar]
        · rw [if_neg h2] at h
          exact absurd h (by simp)
    | m + 2 =>
      rw [matchComponents_succ_succ] at h
      by_cases h1 : (cs.takeWhile isGroupChar).isEmpty
      · rw [if_pos h1] at h
        exact absurd h (by simp)
      · rw [if_neg h1] at h
        split at h
        · rename_i rest hdrop
          obtain ⟨tailc, htail, rfl⟩ := Option.map_eq_some'.mp h
          obtain ⟨hlen, hval, hrest⟩ := ih (m + 1) (by omega) rest tailc htail
          have hne : tailc ≠ [] := by
            intro he
            rw [he] at hlen
            simp at hlen
          refine ⟨by simp [hlen], ?_, ?_⟩
          · intro l hl
            rcases List.mem_cons.mp hl with rfl | hl
            · refine ⟨fun he => h1 (by simp [he]), fun c hc => ?_⟩
              exact (isGroupChar_iff c).mp (List.mem_takeWhile_imp hc)
            · exact hval l hl
          · rcases tailc with _ | ⟨t0, ts⟩
            · exact absurd rfl hne
            · have hcs : cs = cs.takeWhile isGroupChar ++ '\\' :: rest := by
                conv_lhs => rw [← List.takeWhile_append_dropWhile (p := isGroupChar) (l := cs)]
                rw [← drop_takeWhile_length isGroupChar cs, hdrop]
              have hjoin : joinChar '\\' (cs.takeWhile isGroupChar :: t0 :: ts) =
                  cs.takeWhile isGroupChar ++ '\\' :: joinChar '\\' (t0 :: ts) := rfl
              rw [hjoin, ← hrest]
              exact hcs
        · exact absurd h (by simp)

theorem matchComponents_complete :
    ∀ (comps : List (List Char)), (∀ l ∈ comps, specValidComponent l) →
      matchComponents comps.length (joinChar '\\' comps) = some comps := by
  intro comps
  induction comps with
  | nil => intro _; rfl
  | cons l rest ih =>
    intro h
    have hl : specValidComponent l := h l (List.mem_cons_self l rest)
    have hlchars : ∀ c ∈ l, isGroupChar c = true :=
      fun c hc => (isGroupChar_iff c).mpr (hl.2 c hc)
    rcases rest with _ | ⟨l2, rs⟩
    · show matchComponents 1 (joinChar '\\' [l]) = some [l]
      have hj : joinChar '\\' [l] = l := rfl
      rw [matchComponents_one, hj, takeWhile_all hlchars]
      rw [if_neg (by simpa using hl.1)]
      rw [List.drop_length]
      rfl
    · have hj : joinChar '\\' (l :: l2 :: rs) = l ++ '\\' :: joinChar '\\' (l2 :: rs) := rfl
      show matchComponents (rs.length + 2) (joinChar '\\' (l :: l2 :: rs)) = some (l :: l2 :: rs)
      rw [matchComponents_succ_succ, hj]
      rw [takeWhile_append_not hlchars isGroupChar_backslash]
      rw [if_neg (by simpa using hl.1)]
      rw [List.drop_left]
      show (matchComponents (rs.length + 1) (joinChar '\\' (l2 :: rs))).map (fun x => l :: x) =
        some (l :: l2 :: rs)
      have ihr := ih (fun x hx => h x (List.mem_cons_of_mem l hx))
      simp only [List.length_cons] at ihr
      rw [ihr]
      rfl

theorem matchInputPath_nil (n : Nat) : matchInputPath n [] = matchComponents n [] := rfl

theorem matchInputPath_backslash (n : Nat) (rest : List Char) :
    matchInputPath n ('\\' :: rest) = matchComponents n rest := by
  show (matchComponents n rest).orElse (fun _ => matchComponents n ('\\' :: rest)) =
    matchComponents n rest
  rw [matchComponents_backslash]
  cases matchComponents n rest <;> rfl

theorem matchInputPath_cons_ne (n : Nat) (c : Char) (cs : List Char) (hc : c ≠ '\\') :
    matchInputPath n (c :: cs) = matchComponents n (c :: cs) := by
  unfold matchInputPath
  split
  · rename_i heq
    exact absurd (List.cons.inj heq).1 hc
  · rfl

theorem joinChar_shape (c : Char) (l' : List Char) (t : List (List Char)) :
    ∃ tail : List Char, joinChar '\\' ((c :: l') :: t) = c :: tail := by
  rcases t with _ | ⟨t0, ts⟩
  · exact ⟨l', rfl⟩
  · exact ⟨l' ++ '\\' :: joinChar '\\' (t0 :: ts), by simp [joinChar]⟩

theorem matchInputPath_eq_some_iff (n : Nat) (cs : List Char) (comps : List (List Char)) :
    matchInputPath n cs = some comps ↔
      comps.length = n ∧ (∀ l ∈ comps, specValidComponent l) ∧
        (cs = joinChar '\\' comps ∨ cs = '\\' :: joinChar '\\' comps) := by
  constructor
  · intro h
    rcases cs with _ | ⟨c, cs'⟩
    · rw [matchInputPath_nil] at h
      obtain ⟨h1, h2, h3⟩ := matchComponents_sound n [] comps h
      exact ⟨h1, h2, Or.inl h3⟩
    · by_cases hc : c = '\\'
      · subst hc
        rw [matchInputPath_backslash] at h
        obtain ⟨h1, h2, h3⟩ := matchComponents_sound n cs' comps h
        exact ⟨h1, h2, Or.inr (by rw [h3])⟩
      · rw [matchInputPath_cons_ne n c cs' hc] at h
        obtain ⟨h1, h2, h3⟩ := matchComponents_sound n (c :: cs') comps h
        exact ⟨h1, h2, Or.inl h3⟩
  · rintro ⟨hlen, hval, hcs | hcs⟩
    · subst hlen
      subst hcs
      rcases comps with _ | ⟨l, t⟩
      · rfl
      · have hl : specValidComponent l := hval l (List.mem_cons_self l t)
        rcases hlc : l with _ | ⟨c, l'⟩
        · exact absurd hlc hl.1
        · subst hlc
          obtain ⟨tail, htail⟩ := joinChar_shape c l' t
          have hcne : c ≠ '\\' := (hl.2 c (List.mem_cons_self c l')).1
          rw [htail, matchInputPath_cons_ne _ c tail hcne, ← htail]
          exact matchComponents_complete ((c :: l') :: t) hval
    · subst hlen
      subst hcs
      rw [matchInputPath_backslash]
      exact matchComponents_complete comps hval

theorem specStructuralMatch_iff (n : Nat) (path : String) :
    (matchInputPath n path.data).isSome = true ↔ specStructuralMatch n path := by
  constructor
  · intro h
    obtain ⟨comps, hc⟩ := Option.isSome_iff_exists.mp h
    obtain ⟨h1, h2, h3⟩ := (matchInputPath_eq_some_iff n path.data comps).mp hc
    exact ⟨comps, h1, h2, h3⟩
  · rintro ⟨comps, h1, h2, h3⟩
    rw [(matchInputPath_eq_some_iff n path.data comps).mpr ⟨h1, h2, h3⟩]
    rfl

/-! ### Lemmas about the group dictionary (zip + lookup) -/

theorem zip_lookup_isSome {α β : Type} [BEq α] [LawfulBEq α] :
    ∀ (ks : List α) (vs : List β), ks.length = vs.length →
      ∀ k ∈ ks, ((ks.zip vs).lookup k).isSome = true := by
  intro ks
  induction ks with
  | nil => intro vs _ k hk; cases hk
  | cons k0 kt ih =>
    intro vs hlen k hk
    rcases vs with _ | ⟨v0, vt⟩
    · simp at hlen
    · rw [List.zip_cons_cons]
      by_cases hek : k = k0
      · subst hek
        simp [List.lookup]
      · rcases List.mem_cons.mp hk with rfl | hk2
        · exact absurd rfl hek
        · have hb : (k == k0) = false := beq_eq_false_iff_ne.mpr hek
          have hstep : ((k0, v0) :: kt.zip vt).lookup k = (kt.zip vt).lookup k := by
            simp [List.lookup, hb]
          rw [hstep]
          exact ih vt (by simpa using hlen) k hk2

theorem zip_lookup_mem {α β : Type} [BEq α] [LawfulBEq α] :
    ∀ (ks : List α) (vs : List β) (k : α) (v : β),
      ((ks.zip vs).lookup k) = some v → v ∈ vs := by
  intro ks
  induction ks with
  | nil => intro vs k v h; simp [List.lookup] at h
  | cons k0 kt ih =>
    intro vs k v h
    rcases vs with _ | ⟨v0, vt⟩
    · simp [List.lookup] at h
    · rw [List.zip_cons_cons] at h
      by_cases hek : k = k0
      · subst hek
        simp [List.lookup] at h
        subst h
        exact List.mem_cons_self v0 vt
      · have hb : (k == k0) = false := beq_eq_false_iff_ne.mpr hek
        have hstep : ((k0, v0) :: kt.zip vt).lookup k = (kt.zip vt).lookup k := by
          simp [List.lookup, hb]
        rw [hstep] at h
        exact List.mem_cons_of_mem v0 (ih vt k v h)

theorem zip_lookup_of_mem {α β : Type} [BEq α] [LawfulBEq α] :
    ∀ (ks : List α) (vs : List β), ks.Nodup →
      ∀ pr ∈ ks.zip vs, (ks.zip vs).lookup pr.1 = some pr.2 := by
  intro ks
  induction ks with
  | nil => intro vs _ pr hpr; simp at hpr
  | cons k0 kt ih =>
    intro vs hnd pr hpr
    rcases vs with _ | ⟨v0, vt⟩
    · simp at hpr
    · rw [List.zip_cons_cons] at hpr ⊢
      rcases List.mem_cons.mp hpr with rfl | hpr2
      · simp [List.lookup]
      · have hk : pr.1 ∈ kt := (List.of_mem_zip hpr2).1
        have hne : pr.1 ≠ k0 := by
          intro he
          exact (List.nodup_cons.mp hnd).1 (he ▸ hk)
        have hb : (pr.1 == k0) = false := beq_eq_false_iff_ne.mpr hne
        have hstep : ((k0, v0) :: kt.zip vt).lookup pr.1 = (kt.zip vt).lookup pr.1 := by
          simp [List.lookup, hb]
        rw [hstep]
        exact ih vt (List.nodup_cons.mp hnd).2 pr hpr2

theorem zip_map_lookup {α β : Type} [BEq α] [LawfulBEq α] (f : α → β) :
    ∀ ks : List α, ks.Nodup → ∀ k ∈ ks, ((ks.zip (ks.map f)).lookup k) = some (f k) := by
  intro ks
  induction ks with
  | nil => intro _ k hk; cases hk
  | cons k0 kt ih =>
    intro hnd k hk
    rw [List.map_cons, List.zip_cons_cons]
    by_cases hek : k = k0
    · subst hek
      simp [List.lookup]
    · rcases List.mem_cons.mp hk with rfl | hk2
      · exact absurd rfl hek
      · have hb : (k == k0) = false := beq_eq_false_iff_ne.mpr hek
        have hstep : ((k0, f k0) :: kt.zip (kt.map f)).lookup k =
            (kt.zip (kt.map f)).lookup k := by
          simp [List.lookup, hb]
        rw [hstep]
        exact ih (List.nodup_cons.mp hnd).2 k hk2

theorem map_zip_lookup {α β : Type} [BEq α] [LawfulBEq α] (d : β) :
    ∀ (ks : List α) (vs : List β), ks.Nodup → ks.length = vs.length →
      ks.map (fun k => ((ks.zip vs).lookup k).getD d) = vs := by
  intro ks
  induction ks with
  | nil =>
    intro vs _ hlen
    rcases vs with _ | ⟨v0, vt⟩
    · rfl
    · simp at hlen
  | cons k0 kt ih =>
    intro vs hnd hlen
    rcases vs with _ | ⟨v0, vt⟩
    · simp at hlen
    · rw [List.zip_cons_cons, List.map_cons]
      have hhead : (((k0, v0) :: kt.zip vt).lookup k0).getD d = v0 := by
        simp [List.lookup]
      rw [hhead]
      have htail : kt.map (fun k => (((k0, v0) :: kt.zip vt).lookup k).getD d) =
          kt.map (fun k => ((kt.zip vt).lookup k).getD d) := by
        apply List.map_congr_left
        intro a ha
        have hne : a ≠ k0 := by
          intro he
          exact (List.nodup_cons.mp hnd).1 (he ▸ ha)
        have hb : (a == k0) = false := beq_eq_false_iff_ne.mpr hne
        simp [List.lookup, hb]
      rw [htail, ih vt (List.nodup_cons.mp hnd).2 (by simpa using hlen)]

theorem filterMap_eq_map_of_isSome {α β : Type} (f : α → Option β) (d : β) :
    ∀ (l : List α), (∀ a ∈ l, (f a).isSome = true) →
      l.filterMap f = l.map (fun a => (f a).getD d) := by
  intro l
  induction l with
  | nil => intro _; rfl
  | cons a t ih =>
    intro h
    obtain ⟨v, hv⟩ := Option.isSome_iff_exists.mp (h a (List.mem_cons_self a t))
    rw [List.filterMap_cons, hv, List.map_cons, hv]
    rw [ih (fun x hx => h x (List.mem_cons_of_mem a hx))]
    rfl

/-! ### Unfolding lemmas for the transform -/

theorem transformFunction_eq (I O : List String) (path : String) :
    transformFunction I O path =
      match matchInputPath I.length path.data with
      | none => none
      | some comps =>
        if (I.zip comps).isEmpty then none
        else some (List.asString (joinChar '/'
          (O.filterMap (fun key => (I.zip comps).lookup key)))) := rfl

theorem zip_not_isEmpty (I : List String) (comps : List (List Char)) (hne : I ≠ [])
    (hlen : comps.length = I.length) : (I.zip comps).isEmpty = false := by
  rcases I with _ | ⟨k0, kt⟩
  · exact absurd rfl hne
  · rcases comps with _ | ⟨c0, ct⟩
    · simp at hlen
    · rfl

theorem transformFunction_eq_some (I O : List String) (path : String)
    (comps : List (List Char)) (hmatch : matchInputPath I.length path.data = some comps)
    (hne : I ≠ []) :
    transformFunction I O path =
      some (List.asString (joinChar '/'
        (O.filterMap (fun key => (I.zip comps).lookup key)))) := by
  have hlen : comps.length = I.length :=
    ((matchInputPath_eq_some_iff I.length path.data comps).mp hmatch).1
  have hz : (I.zip comps).isEmpty = false := zip_not_isEmpty I comps hne hlen
  simp only [transformFunction_eq, hmatch]
  rw [if_neg (by simp [hz])]

/-! ### Claims C1, C2, C3 -/

/-- C1 (amended): for every **non-empty** input schema `I` (duplicate-free, as
the data model requires) and every relative path string, the compiled
transform returns a rebuilt path exactly when the path consists of exactly
`len(I)` non-empty components free of separator characters (backslash or
forward slash), joined by the backslash of the matching convention, optionally
preceded by a single leading separator; for any other component count or
structural deviation it returns the no-match signal.  The non-emptiness
restriction is forced by the counterexample `transform_empty_schema_cex`: with
the empty schema the group dictionary is empty and falsy, so the transform
returns the no-match signal even on a structurally matching path. -/
theorem transform_isSome_iff_structural (I O : List String) (hne : I ≠ [])
    (hnd : I.Nodup) (path : String) :
    (transformFunction I O path).isSome = true ↔ specStructuralMatch I.length path := by
  have _hnd := hnd
  rw [← specStructuralMatch_iff]
  constructor
  · intro h
    cases hm : matchInputPath I.length path.data with
    | none =>
      simp only [transformFunction_eq, hm] at h
      exact h
    | some comps => rfl
  · intro h
    obtain ⟨comps, hm⟩ := Option.isSome_iff_exists.mp h
    rw [transformFunction_eq_some I O path comps hm hne]
    rfl

/-- C1 witness: the theorem applied to the schema pair `([a, b], [b, a])` and
the path `x\y`. -/
theorem transform_isSome_iff_structural_witness :
    (["a", "b"] : List String) ≠ [] ∧ (["a", "b"] : List String).Nodup ∧
      ((transformFunction ["a", "b"] ["b", "a"] "x\\y").isSome = true ↔
        specStructuralMatch 2 "x\\y") :=
  ⟨by decide, by decide,
    transform_isSome_iff_structural ["a", "b"] ["b", "a"] (by decide) (by decide) "x\\y"⟩

/-- C1 counterexample: with the empty input schema, the empty relative path
matches the compiled pattern structurally (exactly zero components, no
deviation), yet the transform returns the no-match signal, because the empty
group dictionary is falsy in Python. -/
theorem transform_empty_schema_cex :
    specStructuralMatch 0 "" ∧ transformFunction [] [] "" = none := by
  constructor
  · exact ⟨[], rfl, by simp, Or.inl rfl⟩
  · rfl

/-- C2: whenever the transform returns a rebuilt destination path, that path
is obtained by looking up each name of the output schema `O`, in `O`'s order,
in the per-path binding (the group dictionary zipping the input schema with
the captured components) and joining the values with a forward slash; a name
occurring twice in `O` contributes its captured value at each occurrence,
the rebuilt list being a `map` over `O`. -/
theorem rebuilt_path_is_lookup_join (I O : List String) (hnd : I.Nodup)
    (hsub : ∀ k ∈ O, k ∈ I) (path d : String)
    (hd : transformFunction I O path = some d) :
    ∃ comps : List (List Char),
      matchInputPath I.length path.data = some comps ∧
      (∀ pr ∈ I.zip comps, ((I.zip comps).lookup pr.1).getD [] = pr.2) ∧
      d = List.asString (joinChar '/'
        (O.map (fun k => ((I.zip comps).lookup k).getD []))) := by
  cases hm : matchInputPath I.length path.data with
  | none =>
    simp only [transformFunction_eq, hm] at hd
    exact absurd hd (by simp)
  | some comps =>
    have hlen : comps.length = I.length :=
      ((matchInputPath_eq_some_iff I.length path.data comps).mp hm).1
    simp only [transformFunction_eq, hm] at hd
    by_cases hz : (I.zip comps).isEmpty
    · rw [if_pos hz] at hd
      exact absurd hd (by simp)
    · rw [if_neg hz] at hd
      have hsome : ∀ k ∈ O, ((I.zip comps).lookup k).isSome = true :=
        fun k hk => zip_lookup_isSome I comps hlen.symm k (hsub k hk)
      refine ⟨comps, rfl, ?_, ?_⟩
      · intro pr hpr
        rw [zip_lookup_of_mem I comps hnd pr hpr]
        rfl
      · rw [← Option.some.inj hd, filterMap_eq_map_of_isSome _ [] O hsome]

/-- C2 witness: the theorem applied to the schema pair `([a, b], [b, a, b])` —
the output schema reuses the name `b` twice — and the path `x\y`, whose
rebuilt destination path is `y/x/y`. -/
theorem rebuilt_path_is_lookup_join_witness :
    (["a", "b"] : List String).Nodup ∧ (∀ k ∈ (["b", "a", "b"] : List String), k ∈ (["a", "b"] : List String)) ∧
      transformFunction ["a", "b"] ["b", "a", "b"] "x\\y" = some "y/x/y" ∧
      ∃ comps : List (List Char),
        matchInputPath (["a", "b"] : List String).length "x\\y".data = some comps ∧
        (∀ pr ∈ (["a", "b"] : List String).zip comps,
          (((["a", "b"] : List String).zip comps).lookup pr.1).getD [] = pr.2) ∧
        "y/x/y" = List.asString (joinChar '/'
          ((["b", "a", "b"] : List String).map
            (fun k => (((["a", "b"] : List String).zip comps).lookup k).getD []))) :=
  ⟨by decide, by decide, by decide,
    rebuilt_path_is_lookup_join ["a", "b"] ["b", "a", "b"] (by decide) (by decide)
      "x\\y" "y/x/y" (by decide)⟩

/-- C3 counterexample: with input schema `[a, b]` and output schema `[b, a]`,
the literal relative path string `x/y` does not match the compiled pattern —
the pattern separates components with a backslash and excludes the forward
slash from components — so the transform returns the no-match signal rather
than the rebuilt path `y/x`. -/
theorem scenario_a_forward_slash_cex :
    transformFunction ["a", "b"] ["b", "a"] "x/y" = none ∧
      transformFunction ["a", "b"] ["b", "a"] "x/y" ≠ some "y/x" := by
  constructor
  · rfl
  · decide

/-- C3 (amended): with input schema `[a, b]` and output schema `[b, a]`,
transforming the relative source path written in the matcher's backslash
separator convention, `x\y`, yields the destination relative path `y/x`. -/
theorem scenario_a_backslash_convention :
    transformFunction ["a", "b"] ["b", "a"] "x\\y" = some "y/x" := by
  rfl

/-! ### Unfolding lemmas for the orchestrator -/

theorem processFile_eq (I O : List String) (dstDir : String) (fs : DestTree) (f : FileCase) :
    processFile I O dstDir fs f =
      match transformFunction I O f.relPath with
      | none => (fs, Outcome.ignored)
      | some d =>
        if d.isEmpty then (fs, Outcome.ignored)
        else
          if (fs.lookup (dstDir ++ "/" ++ d)).isSome then (fs, Outcome.skipped)
          else if f.copyFails then (fs, Outcome.copyError)
          else ((dstDir ++ "/" ++ d, f.content) :: fs, Outcome.copied) := rfl

theorem mainLoop_cons (I O : List String) (dstDir : String) (f : FileCase)
    (rest : List FileCase) (fs : DestTree) (t : Tally) :
    mainLoop I O dstDir (f :: rest) fs t =
      mainLoop I O dstDir rest (processFile I O dstDir fs f).1
        (applyTally (processFile I O dstDir fs f).2 t) := rfl

/-! ### Claims C7, C8, C9, C10 -/

/-- C7: for a processed file whose computed destination path already exists in
the destination tree, the orchestrator records the file as skipped, leaves the
destination tree — hence the content stored at the existing destination —
unchanged (no copy is performed), continues the loop with the remaining files,
and the tally update increments the skipped counter and nothing else. -/
theorem existing_destination_skipped (I O : List String) (dstDir : String)
    (fs : DestTree) (f : FileCase) (rest : List FileCase) (t : Tally)
    (d content : String) (hd : transformFunction I O f.relPath = some d)
    (hne : d.isEmpty = false)
    (hex : fs.lookup (dstDir ++ "/" ++ d) = some content) :
    processFile I O dstDir fs f = (fs, Outcome.skipped) ∧
      (processFile I O dstDir fs f).1.lookup (dstDir ++ "/" ++ d) = some content ∧
      mainLoop I O dstDir (f :: rest) fs t =
        mainLoop I O dstDir rest fs (applyTally Outcome.skipped t) ∧
      applyTally Outcome.skipped t =
        { copied := t.copied, ignored := t.ignored, skipped := t.skipped + 1,
          errors := t.errors } := by
  have hp : processFile I O dstDir fs f = (fs, Outcome.skipped) := by
    simp only [processFile_eq, hd]
    rw [if_neg (by simp [hne]), if_pos (by simp [hex])]
  refine ⟨hp, ?_, ?_, rfl⟩
  · rw [hp]
    exact hex
  · rw [mainLoop_cons, hp]

/-- C7 witness: the theorem applied to a concrete file whose destination
`dst/y/x` already holds the content `old`. -/
theorem existing_destination_skipped_witness :
    transformFunction ["a", "b"] ["b", "a"]
        (FileCase.mk "x\\y" "new" false).relPath = some "y/x" ∧
      ("y/x" : String).isEmpty = false ∧
      ([("dst/y/x", "old")] : DestTree).lookup ("dst" ++ "/" ++ "y/x") = some "old" ∧
      processFile ["a", "b"] ["b", "a"] "dst" [("dst/y/x", "old")]
        (FileCase.mk "x\\y" "new" false) = ([("dst/y/x", "old")], Outcome.skipped) :=
  ⟨by decide, by decide, by decide,
    (existing_destination_skipped ["a", "b"] ["b", "a"] "dst" [("dst/y/x", "old")]
      (FileCase.mk "x\\y" "new" false) [] (Tally.mk 1 2 3 4) "y/x" "old" (by decide)
      (by decide) (by decide)).1⟩

/-- C8: if copying one file raises an I/O error (the `copyFails` oracle of the
file case, covering `IOError` and `SameFileError`), the orchestrator records
that file as a copy error, the tally update increments the error counter and
nothing else, and the loop continues with the remaining files — the failure
never aborts the run. -/
theorem copy_error_continues (I O : List String) (dstDir : String)
    (fs : DestTree) (f : FileCase) (rest : List FileCase) (t : Tally)
    (d : String) (hd : transformFunction I O f.relPath = some d)
    (hne : d.isEmpty = false)
    (hnew : fs.lookup (dstDir ++ "/" ++ d) = none)
    (hfail : f.copyFails = true) :
    processFile I O dstDir fs f = (fs, Outcome.copyError) ∧
      mainLoop I O dstDir (f :: rest) fs t =
        mainLoop I O dstDir rest fs (applyTally Outcome.copyError t) ∧
      applyTally Outcome.copyError t =
        { copied := t.copied, ignored := t.ignored, skipped := t.skipped,
          errors := t.errors + 1 } := by
  have hp : processFile I O dstDir fs f = (fs, Outcome.copyError) := by
    simp only [processFile_eq, hd]
    rw [if_neg (by simp [hne]), if_neg (by simp [hnew]), if_pos hfail]
  refine ⟨hp, ?_, rfl⟩
  rw [mainLoop_cons, hp]

/-- C8 witness: the theorem applied to a concrete file whose copy operation
fails against an empty destination tree. -/
theorem copy_error_continues_witness :
    transformFunction ["a", "b"] ["b", "a"]
        (FileCase.mk "x\\y" "new" true).relPath = some "y/x" ∧
      (FileCase.mk "x\\y" "new" true).copyFails = true ∧
      processFile ["a", "b"] ["b", "a"] "dst" [] (FileCase.mk "x\\y" "new" true) =
        ([], Outcome.copyError) :=
  ⟨by decide, by decide,
    (copy_error_continues ["a", "b"] ["b", "a"] "dst" []
      (FileCase.mk "x\\y" "new" true) [] (Tally.mk 1 2 3 4) "y/x" (by decide)
      (by decide) (by decide) (by decide)).1⟩

/-- C9 (amended): if the output schema is empty and the input schema is
**non-empty**, then for every relative path that structurally matches the
input schema the transform returns the empty path (the forward-slash join of
no values), and the orchestrator, for which the empty string is falsy, treats
that result as "no match": the file is tallied as ignored, nothing is copied,
and the loop continues.  The non-emptiness restriction is forced by the
counterexample `empty_schemas_cex`: for the empty input schema the transform
returns the no-match signal `none` instead of the empty path (the orchestrator
none the less ignores the file). -/
theorem empty_output_schema_ignored (I : List String) (hne : I ≠ [])
    (path : String) (comps : List (List Char))
    (hmatch : matchInputPath I.length path.data = some comps)
    (dstDir : String) (fs : DestTree) (content : String) (cf : Bool)
    (rest : List FileCase) (t : Tally) :
    transformFunction I [] path = some "" ∧
      processFile I [] dstDir fs (FileCase.mk path content cf) = (fs, Outcome.ignored) ∧
      mainLoop I [] dstDir (FileCase.mk path content cf :: rest) fs t =
        mainLoop I [] dstDir rest fs (applyTally Outcome.ignored t) := by
  have ht : transformFunction I [] path = some "" := by
    rw [transformFunction_eq_some I [] path comps hmatch hne]
    rfl
  have hp : processFile I [] dstDir fs (FileCase.mk path content cf) =
      (fs, Outcome.ignored) := by
    simp only [processFile_eq, ht]
    rfl
  exact ⟨ht, hp, by rw [mainLoop_cons, hp]⟩

/-- C9 witness: the theorem applied to the one-name schema `[a]` and the
matching path `x`. -/
theorem empty_output_schema_ignored_witness :
    (["a"] : List String) ≠ [] ∧
      matchInputPath (["a"] : List String).length "x".data = some [['x']] ∧
      transformFunction ["a"] [] "x" = some "" ∧
      processFile ["a"] [] "dst" [] (FileCase.mk "x" "data" false) =
        ([], Outcome.ignored) :=
  ⟨by decide, by decide,
    (empty_output_schema_ignored ["a"] (by decide) "x" [['x']] (by decide) "dst" []
      "data" false [] (Tally.mk 0 0 0 0)).1,
    (empty_output_schema_ignored ["a"] (by decide) "x" [['x']] (by decide) "dst" []
      "data" false [] (Tally.mk 0 0 0 0)).2.1⟩

/-- C9 counterexample: with both schemas empty, the empty relative path
structurally matches (the compiled pattern accepts it), yet the transform
returns the no-match signal `none` rather than the empty path. -/
theorem empty_schemas_cex :
    matchInputPath 0 "".data = some [] ∧ transformFunction [] [] "" ≠ some "" := by
  constructor
  · rfl
  · decide

/-- C10: the per-file outcomes partition the processed files: every outcome's
tally update increments the sum of the four counters by exactly one (each file
bumps exactly one counter), so after the whole loop the sum of the counters
has grown by exactly the number of files seen. -/
theorem tallies_partition (I O : List String) (dstDir : String) :
    (∀ (o : Outcome) (t : Tally), sumTally (applyTally o t) = sumTally t + 1) ∧
      ∀ (files : List FileCase) (fs : DestTree) (t : Tally),
        sumTally (mainLoop I O dstDir files fs t).2 = sumTally t + files.length := by
  have hstep : ∀ (o : Outcome) (t : Tally), sumTally (applyTally o t) = sumTally t + 1 := by
    intro o t
    cases o <;> simp [applyTally, sumTally] <;> omega
  refine ⟨hstep, ?_⟩
  intro files
  induction files with
  | nil =>
    intro fs t
    simp [mainLoop]
  | cons f rest ih =>
    intro fs t
    rw [mainLoop_cons, ih, hstep]
    simp [List.length_cons]
    omega

/-! ### Lemmas about the validator -/

theorem bool_eq_false {b : Bool} (h : ¬ b = true) : b = false := by
  cases b
  · rfl
  · exact absurd rfl h

theorem matchesWordPlus_eq (key : String) :
    matchesWordPlus key =
      (!(stripTrailingNewline key.data).isEmpty &&
        (stripTrailingNewline key.data).all isWordChar) := rfl

theorem isWordChar_ascii_false (c : Char) (hlt : c.toNat < 128)
    (hspec : specAsciiWordChar c = false) : isWordChar c = false := by
  simp only [specAsciiWordChar, Bool.or_eq_false_iff] at hspec
  have h80 : (decide (0x80 ≤ c.toNat)) = false := decide_eq_false (by omega)
  simp [isWordChar, hspec.1, hspec.2, h80]

theorem isWordChar_of_specAscii (c : Char) (h : specAsciiWordChar c = true) :
    isWordChar c = true := by
  simp only [specAsciiWordChar, Bool.or_eq_true] at h
  rcases h with h | h <;> simp [isWordChar, h]

theorem matchesWordPlus_of_ascii (k : String) (hne : k.data ≠ [])
    (hall : ∀ c ∈ k.data, specAsciiWordChar c = true) : matchesWordPlus k = true := by
  have hstrip : stripTrailingNewline k.data = k.data := by
    have hnot : ¬ k.data.getLast? = some '\n' := by
      intro hlast
      obtain ⟨ys, hys⟩ := List.getLast?_eq_some_iff.mp hlast
      have hmem : ('\n' : Char) ∈ k.data := by
        rw [hys]
        exact List.mem_append_right ys (List.mem_singleton_self '\n')
      exact absurd (hall '\n' hmem) (by decide)
    unfold stripTrailingNewline
    rw [if_neg hnot]
  rw [matchesWordPlus_eq, hstrip]
  have h1 : k.data.isEmpty = false := by
    cases hx : k.data with
    | nil => exact absurd hx hne
    | cons c t => rfl
  rw [h1]
  simp only [Bool.not_false, Bool.true_and]
  rw [List.all_eq_true]
  intro c hc
  exact isWordChar_of_specAscii c (hall c hc)

theorem matchesWordPlus_false_of_bad (k : String)
    (h : stripTrailingNewline k.data = [] ∨
      ∃ c ∈ stripTrailingNewline k.data, c.toNat < 128 ∧ specAsciiWordChar c = false) :
    matchesWordPlus k = false := by
  rw [matchesWordPlus_eq]
  rcases h with h | ⟨c, hc, hlt, hspec⟩
  · rw [h]
    rfl
  · have hw : isWordChar c = false := isWordChar_ascii_false c hlt hspec
    have hall : (stripTrailingNewline k.data).all isWordChar = false :=
      List.all_eq_false.mpr ⟨c, hc, by simp [hw]⟩
    simp [hall]

theorem count_eq_one_of_nodup_mem {α : Type} [BEq α] [LawfulBEq α] :
    ∀ l : List α, l.Nodup → ∀ a ∈ l, l.count a = 1 := by
  intro l
  induction l with
  | nil => intro _ a ha; cases ha
  | cons x t ih =>
    intro hnd a ha
    rw [List.count_cons]
    rcases List.mem_cons.mp ha with rfl | ha2
    · have hz : t.count a = 0 := List.count_eq_zero.mpr (List.nodup_cons.mp hnd).1
      simp [hz]
    · have hne : x ≠ a := by
        intro he
        subst he
        exact (List.nodup_cons.mp hnd).1 ha2
      rw [ih (List.nodup_cons.mp hnd).2 a ha2]
      simp [beq_eq_false_iff_ne.mpr hne]

theorem validateInputKeysAux_cons (L : List String) (key : String) (rest : List String) :
    validateInputKeysAux L (key :: rest) =
      if !matchesWordPlus key then Except.error (invalidInputKeyMsg key)
      else if L.count key ≠ 1 then Except.error (duplicateInputKeyMsg key)
      else validateInputKeysAux L rest := by
  exact rfl

theorem validateOutputKeysAux_cons (L : List String) (key : String) (rest : List String) :
    validateOutputKeysAux L (key :: rest) =
      if !matchesWordPlus key then Except.error (invalidOutputKeyMsg key)
      else if !L.contains key then Except.error (missingOutputKeyMsg key)
      else validateOutputKeysAux L rest := by
  exact rfl

theorem validateInputKeysAux_ok (L : List String) :
    ∀ l : List String, validateInputKeysAux L l = Except.ok () →
      ∀ k ∈ l, matchesWordPlus k = true ∧ L.count k = 1 := by
  intro l
  induction l with
  | nil => intro _ k hk; cases hk
  | cons key rest ih =>
    intro h k hk
    rw [validateInputKeysAux_cons] at h
    by_cases h1 : matchesWordPlus key = true
    · rw [if_neg (by rw [h1]; decide)] at h
      by_cases h2 : L.count key ≠ 1
      · rw [if_pos h2] at h
        exact absurd h (by simp)
      · rw [if_neg h2] at h
        rcases List.mem_cons.mp hk with rfl | hk2
        · exact ⟨h1, not_not.mp h2⟩
        · exact ih h k hk2
    · rw [if_pos (by rw [bool_eq_false h1]; decide)] at h
      exact absurd h (by simp)

theorem validateOutputKeysAux_ok (L : List String) :
    ∀ l : List String, validateOutputKeysAux L l = Except.ok () →
      ∀ k ∈ l, matchesWordPlus k = true ∧ L.contains k = true := by
  intro l
  induction l with
  | nil => intro _ k hk; cases hk
  | cons key rest ih =>
    intro h k hk
    rw [validateOutputKeysAux_cons] at h
    by_cases h1 : matchesWordPlus key = true
    · rw [if_neg (by rw [h1]; decide)] at h
      by_cases h2 : L.contains key = true
      · rw [if_neg (by rw [h2]; decide)] at h
        rcases List.mem_cons.mp hk with rfl | hk2
        · exact ⟨h1, h2⟩
        · exact ih h k hk2
      · rw [if_pos (by rw [bool_eq_false h2]; decide)] at h
        exact absurd h (by simp)
    · rw [if_pos (by rw [bool_eq_false h1]; decide)] at h
      exact absurd h (by simp)

theorem validateInputKeysAux_ok_of_all (L : List String) :
    ∀ l : List String, (∀ k ∈ l, matchesWordPlus k = true ∧ L.count k = 1) →
      validateInputKeysAux L l = Except.ok () := by
  intro l
  induction l with
  | nil => intro _; rfl
  | cons key rest ih =>
    intro h
    obtain ⟨h1, h2⟩ := h key (List.mem_cons_self key rest)
    rw [validateInputKeysAux_cons, if_neg (by rw [h1]; decide), if_neg (by simp [h2])]
    exact ih (fun k hk => h k (List.mem_cons_of_mem key hk))

theorem validateOutputKeysAux_ok_of_all (L : List String) :
    ∀ l : List String, (∀ k ∈ l, matchesWordPlus k = true ∧ L.contains k = true) →
      validateOutputKeysAux L l = Except.ok () := by
  intro l
  induction l with
  | nil => intro _; rfl
  | cons key rest ih =>
    intro h
    obtain ⟨h1, h2⟩ := h key (List.mem_cons_self key rest)
    rw [validateOutputKeysAux_cons, if_neg (by rw [h1]; decide),
      if_neg (by rw [h2]; decide)]
    exact ih (fun k hk => h k (List.mem_cons_of_mem key hk))

theorem validateInputKeysAux_error_forms (L : List String) :
    ∀ (l : List String) (e : String), validateInputKeysAux L l = Except.error e →
      ∃ k ∈ l, (e = invalidInputKeyMsg k ∧ matchesWordPlus k = false) ∨
        (e = duplicateInputKeyMsg k ∧ matchesWordPlus k = true ∧ L.count k ≠ 1) := by
  intro l
  induction l with
  | nil => intro e h; exact absurd h (by simp [validateInputKeysAux])
  | cons key rest ih =>
    intro e h
    rw [validateInputKeysAux_cons] at h
    by_cases h1 : matchesWordPlus key = true
    · rw [if_neg (by rw [h1]; decide)] at h
      by_cases h2 : L.count key ≠ 1
      · rw [if_pos h2] at h
        exact ⟨key, List.mem_cons_self key rest,
          Or.inr ⟨(Except.error.inj h).symm, h1, h2⟩⟩
      · rw [if_neg h2] at h
        obtain ⟨k, hk, hcase⟩ := ih e h
        exact ⟨k, List.mem_cons_of_mem key hk, hcase⟩
    · rw [if_pos (by rw [bool_eq_false h1]; decide)] at h
      exact ⟨key, List.mem_cons_self key rest,
        Or.inl ⟨(Except.error.inj h).symm, bool_eq_false h1⟩⟩

theorem validateOutputKeysAux_error_forms (L : List String) :
    ∀ (l : List String) (e : String), validateOutputKeysAux L l = Except.error e →
      ∃ k ∈ l, (e = invalidOutputKeyMsg k ∧ matchesWordPlus k = false) ∨
        (e = missingOutputKeyMsg k ∧ matchesWordPlus k = true ∧ L.contains k = false) := by
  intro l
  induction l with
  | nil => intro e h; exact absurd h (by simp [validateOutputKeysAux])
  | cons key rest ih =>
    intro e h
    rw [validateOutputKeysAux_cons] at h
    by_cases h1 : matchesWordPlus key = true
    · rw [if_neg (by rw [h1]; decide)] at h
      by_cases h2 : L.contains key = true
      · rw [if_neg (by rw [h2]; decide)] at h
        obtain ⟨k, hk, hcase⟩ := ih e h
        exact ⟨k, List.mem_cons_of_mem key hk, hcase⟩
      · rw [if_pos (by rw [bool_eq_false h2]; decide)] at h
        exact ⟨key, List.mem_cons_self key rest,
          Or.inr ⟨(Except.error.inj h).symm, h1, bool_eq_false h2⟩⟩
    · rw [if_pos (by rw [bool_eq_false h1]; decide)] at h
      exact ⟨key, List.mem_cons_self key rest,
        Or.inl ⟨(Except.error.inj h).symm, bool_eq_false h1⟩⟩

theorem validateInputKeysAux_error_of_bad (L : List String) :
    ∀ l : List String, (∃ k ∈ l, matchesWordPlus k = false) →
      ∃ e, validateInputKeysAux L l = Except.error e := by
  intro l hbad
  cases h : validateInputKeysAux L l with
  | error e => exact ⟨e, rfl⟩
  | ok u =>
    cases u
    obtain ⟨k, hk, hfalse⟩ := hbad
    have := (validateInputKeysAux_ok L l h k hk).1
    rw [hfalse] at this
    exact absurd this (by decide)

theorem validateOutputKeysAux_error_of_bad (L : List String) :
    ∀ l : List String, (∃ k ∈ l, matchesWordPlus k = false) →
      ∃ e, validateOutputKeysAux L l = Except.error e := by
  intro l hbad
  cases h : validateOutputKeysAux L l with
  | error e => exact ⟨e, rfl⟩
  | ok u =>
    cases u
    obtain ⟨k, hk, hfalse⟩ := hbad
    have := (validateOutputKeysAux_ok L l h k hk).1
    rw [hfalse] at this
    exact absurd this (by decide)

theorem validateInputKeysAux_append (L : List String) :
    ∀ good : List String, (∀ g ∈ good, matchesWordPlus g = true ∧ L.count g = 1) →
      ∀ (key : String) (rest : List String),
        validateInputKeysAux L (good ++ key :: rest) =
          if !matchesWordPlus key then Except.error (invalidInputKeyMsg key)
          else if L.count key ≠ 1 then Except.error (duplicateInputKeyMsg key)
          else validateInputKeysAux L rest := by
  intro good
  induction good with
  | nil => intro _ key rest; rfl
  | cons g gt ih =>
    intro hg key rest
    obtain ⟨h1, h2⟩ := hg g (List.mem_cons_self g gt)
    rw [List.cons_append, validateInputKeysAux_cons, if_neg (by rw [h1]; decide),
      if_neg (by simp [h2])]
    exact ih (fun x hx => hg x (List.mem_cons_of_mem g hx)) key rest

theorem validateConfig_eq (I O : List String) :
    validateConfig I O =
      match validateInputKeysConfig I with
      | Except.error e => Except.error e
      | Except.ok _ => validateOutputKeysConfig I O := rfl

/-! ### Claims C4 and C5 -/

/-- C4 (amended): schema validation raises a configuration error whenever some
name of the input or output schema fails Python's `^\w+$` match — after
dropping at most one trailing newline the name is empty or contains an ASCII
character outside `[A-Za-z0-9_]` — and succeeds, producing no output, on every
schema pair all of whose names are non-empty strings over `[A-Za-z0-9_]` and
which satisfies the other rules (duplicate-free input schema, output names
drawn from the input schema).  The restriction of the raising direction to
ASCII characters is forced by the counterexample `validation_unicode_cex`:
Python's `\w` is Unicode-aware and accepts non-ASCII letters such as `é`. -/
theorem validate_wordchar_amended (I O : List String) :
    ((∃ k, (k ∈ I ∨ k ∈ O) ∧
        (stripTrailingNewline k.data = [] ∨
          ∃ c ∈ stripTrailingNewline k.data, c.toNat < 128 ∧ specAsciiWordChar c = false)) →
      ∃ e, validateConfig I O = Except.error e) ∧
    ((∀ k ∈ I, k.data ≠ [] ∧ ∀ c ∈ k.data, specAsciiWordChar c = true) →
      (∀ k ∈ O, k.data ≠ [] ∧ ∀ c ∈ k.data, specAsciiWordChar c = true) →
      I.Nodup → (∀ k ∈ O, k ∈ I) → validateConfig I O = Except.ok ()) := by
  constructor
  · rintro ⟨k, hmem, hbad⟩
    have hfalse : matchesWordPlus k = false := matchesWordPlus_false_of_bad k hbad
    rw [validateConfig_eq]
    cases hin : validateInputKeysConfig I with
    | error e => exact ⟨e, rfl⟩
    | ok u =>
      cases u
      rcases hmem with hI | hO
      · have := (validateInputKeysAux_ok I I hin k hI).1
        rw [hfalse] at this
        exact absurd this (by decide)
      · obtain ⟨e, he⟩ := validateOutputKeysAux_error_of_bad I O ⟨k, hO, hfalse⟩
        exact ⟨e, he⟩
  · intro hI hO hnd hsub
    have hin : validateInputKeysConfig I = Except.ok () :=
      validateInputKeysAux_ok_of_all I I (fun k hk =>
        ⟨matchesWordPlus_of_ascii k (hI k hk).1 (hI k hk).2,
          count_eq_one_of_nodup_mem I hnd k hk⟩)
    have hout : validateOutputKeysConfig I O = Except.ok () :=
      validateOutputKeysAux_ok_of_all I O (fun k hk =>
        ⟨matchesWordPlus_of_ascii k (hO k hk).1 (hO k hk).2,
          List.elem_iff.mpr (hsub k hk)⟩)
    rw [validateConfig_eq, hin]
    exact hout

/-- C4 witness: the raising direction applied to an input schema containing
the key `b d` (the space is an ASCII non-word character), and the succeeding
direction applied to a valid pair that reuses an output name. -/
theorem validate_wordchar_amended_witness :
    (∃ e, validateConfig ["b d"] [] = Except.error e) ∧
      validateConfig ["year", "name"] ["name", "year", "name"] = Except.ok () :=
  ⟨(validate_wordchar_amended ["b d"] []).1 ⟨"b d", Or.inl (by decide), Or.inr (by decide)⟩,
    (validate_wordchar_amended ["year", "name"] ["name", "year", "name"]).2
      (by decide) (by decide) (by decide) (by decide)⟩

/-- C4 counterexample: the name `é` contains a character outside
`[A-Za-z0-9_]`, yet validating the schema pair `([é], [é])` raises nothing —
Python's Unicode-aware `\w` accepts the letter `é`. -/
theorem validation_unicode_cex :
    (∃ c ∈ "é".data, specAsciiWordChar c = false) ∧
      validateConfig ["é"] ["é"] = Except.ok () := by
  constructor
  · decide
  · rfl

/-- C5: schema validation raises a configuration error naming an offending key
whenever some name occurs more than once in the input schema or some output
name is absent from the input schema; the loops are fail-fast — when every key
before some position passes both checks of its loop and the key at that
position fails, the error raised is the one for that key's first failing
check, whatever keys follow — and on a valid pair nothing is raised. -/
theorem validate_dup_missing_failfast (I O : List String) :
    (((∃ k, 2 ≤ I.count k) ∨ ∃ k ∈ O, k ∉ I) →
      ∃ k e, validateConfig I O = Except.error e ∧
        (e = invalidInputKeyMsg k ∨ e = duplicateInputKeyMsg k ∨
          e = invalidOutputKeyMsg k ∨ e = missingOutputKeyMsg k)) ∧
    (∀ (good : List String) (key : String) (rest : List String),
      I = good ++ key :: rest →
      (∀ g ∈ good, matchesWordPlus g = true ∧ I.count g = 1) →
      matchesWordPlus key = false →
      validateInputKeysConfig I = Except.error (invalidInputKeyMsg key)) ∧
    (∀ (good : List String) (key : String) (rest : List String),
      I = good ++ key :: rest →
      (∀ g ∈ good, matchesWordPlus g = true ∧ I.count g = 1) →
      matchesWordPlus key = true → I.count key ≠ 1 →
      validateInputKeysConfig I = Except.error (duplicateInputKeyMsg key)) ∧
    ((∀ k ∈ I, k.data ≠ [] ∧ ∀ c ∈ k.data, specAsciiWordChar c = true) →
      (∀ k ∈ O, k.data ≠ [] ∧ ∀ c ∈ k.data, specAsciiWordChar c = true) →
      I.Nodup → (∀ k ∈ O, k ∈ I) → validateConfig I O = Except.ok ()) := by
  refine ⟨?_, ?_, ?_, ?_⟩
  · rintro (⟨k, hcnt⟩ | ⟨k, hkO, hkI⟩)
    · have hker : ∃ e, validateInputKeysConfig I = Except.error e := by
        cases hin : validateInputKeysConfig I with
        | error e => exact ⟨e, rfl⟩
        | ok u =>
          cases u
          have hkmem : k ∈ I := List.count_pos_iff.mp (by omega)
          have := (validateInputKeysAux_ok I I hin k hkmem).2
          omega
      obtain ⟨e, he⟩ := hker
      obtain ⟨k2, hk2, hforms⟩ := validateInputKeysAux_error_forms I I e he
      refine ⟨k2, e, ?_, ?_⟩
      · rw [validateConfig_eq, he]
      · rcases hforms with ⟨h, _⟩ | ⟨h, _⟩
        · exact Or.inl h
        · exact Or.inr (Or.inl h)
    · rw [validateConfig_eq]
      cases hin : validateInputKeysConfig I with
      | error e =>
        obtain ⟨k2, hk2, hforms⟩ := validateInputKeysAux_error_forms I I e hin
        refine ⟨k2, e, rfl, ?_⟩
        rcases hforms with ⟨h, _⟩ | ⟨h, _⟩
        · exact Or.inl h
        · exact Or.inr (Or.inl h)
      | ok u =>
        cases u
        have hoer : ∃ e, validateOutputKeysConfig I O = Except.error e := by
          cases hout : validateOutputKeysConfig I O with
          | error e => exact ⟨e, rfl⟩
          | ok u2 =>
            cases u2
            have := (validateOutputKeysAux_ok I O hout k hkO).2
            exact absurd (List.elem_iff.mp this) hkI
        obtain ⟨e, he⟩ := hoer
        obtain ⟨k2, hk2, hforms⟩ := validateOutputKeysAux_error_forms I O e he
        refine ⟨k2, e, he, ?_⟩
        rcases hforms with ⟨h, _⟩ | ⟨h, _⟩
        · exact Or.inr (Or.inr (Or.inl h))
        · exact Or.inr (Or.inr (Or.inr h))
  · intro good key rest hIeq hgood hbad
    subst hIeq
    show validateInputKeysAux (good ++ key :: rest) (good ++ key :: rest) =
      Except.error (invalidInputKeyMsg key)
    rw [validateInputKeysAux_append _ good hgood key rest,
      if_pos (by rw [hbad]; decide)]
  · intro good key rest hIeq hgood hkey hcnt
    subst hIeq
    show validateInputKeysAux (good ++ key :: rest) (good ++ key :: rest) =
      Except.error (duplicateInputKeyMsg key)
    rw [validateInputKeysAux_append _ good hgood key rest,
      if_neg (by rw [hkey]; decide), if_pos hcnt]
  · intro hI2 hO2 hnd hsub
    have hin : validateInputKeysConfig I = Except.ok () :=
      validateInputKeysAux_ok_of_all I I (fun k hk =>
        ⟨matchesWordPlus_of_ascii k (hI2 k hk).1 (hI2 k hk).2,
          count_eq_one_of_nodup_mem I hnd k hk⟩)
    have hout : validateOutputKeysConfig I O = Except.ok () :=
      validateOutputKeysAux_ok_of_all I O (fun k hk =>
        ⟨matchesWordPlus_of_ascii k (hO2 k hk).1 (hO2 k hk).2,
          List.elem_iff.mpr (hsub k hk)⟩)
    rw [validateConfig_eq, hin]
    exact hout

/-- C5 witness: a duplicate input name raising an identifying error, fail-fast
behaviour on an invalid key and on a duplicate key each sitting behind one
passing key, and a valid pair (with a repeated output name) raising nothing. -/
theorem validate_dup_missing_failfast_witness :
    (∃ k e, validateConfig ["a", "a"] [] = Except.error e ∧
        (e = invalidInputKeyMsg k ∨ e = duplicateInputKeyMsg k ∨
          e = invalidOutputKeyMsg k ∨ e = missingOutputKeyMsg k)) ∧
      validateInputKeysConfig ["x", "b d", "y"] =
        Except.error (invalidInputKeyMsg "b d") ∧
      validateInputKeysConfig ["x", "a", "z", "a"] =
        Except.error (duplicateInputKeyMsg "a") ∧
      validateConfig ["a"] ["a", "a"] = Except.ok () :=
  ⟨(validate_dup_missing_failfast ["a", "a"] []).1 (Or.inl ⟨"a", by decide⟩),
    (validate_dup_missing_failfast ["x", "b d", "y"] []).2.1 ["x"] "b d" ["y"] rfl
      (by decide) (by decide),
    (validate_dup_missing_failfast ["x", "a", "z", "a"] []).2.2.1 ["x"] "a" ["z", "a"] rfl
      (by decide) (by decide) (by decide),
    (validate_dup_missing_failfast ["a"] ["a", "a"]).2.2.2 (by decide) (by decide)
      (by decide) (by decide)⟩

/-! ### Lemmas for the round trip -/

theorem joinChar_map (f : Char → Char) (sep : Char) :
    ∀ ls : List (List Char), (joinChar sep ls).map f =
      joinChar (f sep) (ls.map (fun l => l.map f)) := by
  intro ls
  induction ls with
  | nil => rfl
  | cons l t ih =>
    rcases t with _ | ⟨l2, ts⟩
    · rfl
    · show (l ++ sep :: joinChar sep (l2 :: ts)).map f =
        l.map f ++ f sep :: joinChar (f sep) ((l2 :: ts).map (fun x => x.map f))
      rw [List.map_append, List.map_cons, ih]

theorem splitOnChar_ne_nil (sep : Char) : ∀ cs : List Char, splitOnChar sep cs ≠ [] := by
  intro cs
  cases cs with
  | nil => simp [splitOnChar]
  | cons c rest =>
    unfold splitOnChar
    cases h : splitOnChar sep rest with
    | nil => simp
    | cons hh tt => by_cases hc : c = sep <;> simp [hc]

theorem splitOnChar_sepFree (sep : Char) :
    ∀ l : List Char, (∀ c ∈ l, c ≠ sep) → splitOnChar sep l = [l] := by
  intro l
  induction l with
  | nil => intro _; rfl
  | cons c t ih =>
    intro h
    unfold splitOnChar
    simp only [ih (fun x hx => h x (List.mem_cons_of_mem c hx))]
    rw [if_neg (h c (List.mem_cons_self c t))]

theorem splitOnChar_append (sep : Char) :
    ∀ l cs : List Char, (∀ c ∈ l, c ≠ sep) →
      splitOnChar sep (l ++ sep :: cs) = l :: splitOnChar sep cs := by
  intro l
  induction l with
  | nil =>
    intro cs _
    show (match splitOnChar sep cs with
      | [] => [[sep]]
      | h :: t => if sep = sep then [] :: h :: t else (sep :: h) :: t) =
      [] :: splitOnChar sep cs
    cases h : splitOnChar sep cs with
    | nil => exact absurd h (splitOnChar_ne_nil sep cs)
    | cons hh tt => simp
  | cons c t ih =>
    intro cs h
    have hc : c ≠ sep := h c (List.mem_cons_self c t)
    show (match splitOnChar sep (t ++ sep :: cs) with
      | [] => [[c]]
      | h :: t2 => if c = sep then [] :: h :: t2 else (c :: h) :: t2) =
      (c :: t) :: splitOnChar sep cs
    rw [ih cs (fun x hx => h x (List.mem_cons_of_mem c hx))]
    simp [hc]

theorem splitOnChar_joinChar (sep : Char) :
    ∀ ls : List (List Char), ls ≠ [] → (∀ l ∈ ls, ∀ c ∈ l, c ≠ sep) →
      splitOnChar sep (joinChar sep ls) = ls := by
  intro ls
  induction ls with
  | nil => intro h _; exact absurd rfl h
  | cons l t ih =>
    intro _ hval
    rcases t with _ | ⟨l2, ts⟩
    · exact splitOnChar_sepFree sep l (hval l (List.mem_cons_self l []))
    · have hj : joinChar sep (l :: l2 :: ts) = l ++ sep :: joinChar sep (l2 :: ts) := rfl
      rw [hj, splitOnChar_append sep l _ (hval l (List.mem_cons_self l (l2 :: ts)))]
      rw [ih (by simp) (fun x hx => hval x (List.mem_cons_of_mem l hx))]

/-! ### Claim C6 -/

/-- C6 (amended): let the output schema be a duplicate-free permutation of the
input schema and let a relative path match the input schema, capturing the
component list `comps`.  Transforming the path under `(I, O)` and then
transforming the result — after converting its separators back from the
forward-slash output convention to the backslash matching convention —
under the swapped pair `(O, I)` yields a path whose components (split on the
output separator) reproduce the original path's multiset of components.  The
separator conversion is forced by the counterexample `round_trip_cex`: the
rebuilt path is joined with forward slashes, which the matcher of the second
transform rejects outright. -/
theorem round_trip_multiset (I O : List String) (hnd : I.Nodup)
    (hperm : O.Perm I) (path : String) (comps : List (List Char))
    (hmatch : matchInputPath I.length path.data = some comps) (hne : I ≠ []) :
    ∃ d e : String,
      transformFunction I O path = some d ∧
      transformFunction O I (slashesToBackslashes d) = some e ∧
      Multiset.ofList (splitOnChar '/' e.data) = Multiset.ofList comps := by
  obtain ⟨hlen, hval, _⟩ := (matchInputPath_eq_some_iff I.length path.data comps).mp hmatch
  have hOsub : ∀ k ∈ O, k ∈ I := fun k hk => hperm.mem_iff.mp hk
  have hIsub : ∀ k ∈ I, k ∈ O := fun k hk => hperm.mem_iff.mpr hk
  have hndO : O.Nodup := hperm.nodup_iff.mpr hnd
  have hlenO : O.length = I.length := hperm.length_eq
  have hsome : ∀ k ∈ O, ((I.zip comps).lookup k).isSome = true :=
    fun k hk => zip_lookup_isSome I comps hlen.symm k (hOsub k hk)
  have h1 : transformFunction I O path =
      some (List.asString (joinChar '/' (O.map (bindingOf I comps)))) := by
    rw [transformFunction_eq_some I O path comps hmatch hne,
      filterMap_eq_map_of_isSome _ [] O hsome]
    rfl
  have hvals_mem : ∀ v ∈ O.map (bindingOf I comps), v ∈ comps := by
    intro v hv
    obtain ⟨k, hk, hkv⟩ := List.mem_map.mp hv
    obtain ⟨w, hw⟩ := Option.isSome_iff_exists.mp (hsome k hk)
    have hbw : bindingOf I comps k = w := by
      unfold bindingOf
      rw [hw]
      rfl
    rw [← hkv, hbw]
    exact zip_lookup_mem I comps k w hw
  have hvals_valid : ∀ v ∈ O.map (bindingOf I comps), specValidComponent v :=
    fun v hv => hval v (hvals_mem v hv)
  have hslash : slashesToBackslashes
        (List.asString (joinChar '/' (O.map (bindingOf I comps)))) =
      List.asString (joinChar '\\' (O.map (bindingOf I comps))) := by
    unfold slashesToBackslashes
    congr 1
    have hdata : (List.asString (joinChar '/' (O.map (bindingOf I comps)))).data =
        joinChar '/' (O.map (bindingOf I comps)) := rfl
    rw [hdata, joinChar_map]
    have hid : ∀ l ∈ O.map (bindingOf I comps),
        l.map (fun c => if c = '/' then '\\' else c) = l := by
      intro l hl
      have hv2 := hvals_valid l hl
      calc l.map (fun c => if c = '/' then '\\' else c)
          = l.map id := List.map_congr_left (fun c hc => if_neg (hv2.2 c hc).2)
        _ = l := List.map_id l
    have hmaps : (O.map (bindingOf I comps)).map (fun l => l.map (fun c => if c = '/' then '\\' else c)) =
        O.map (bindingOf I comps) := by
      calc (O.map (bindingOf I comps)).map (fun l => l.map (fun c => if c = '/' then '\\' else c))
          = (O.map (bindingOf I comps)).map id := List.map_congr_left hid
        _ = O.map (bindingOf I comps) := List.map_id _
    rw [hmaps]
    rfl
  have hOne : O ≠ [] := by
    intro he
    apply hne
    apply List.length_eq_zero.mp
    rw [← hlenO, he]
    rfl
  have hmatch2 : matchInputPath O.length
      (List.asString (joinChar '\\' (O.map (bindingOf I comps)))).data =
      some (O.map (bindingOf I comps)) := by
    have hdata : (List.asString (joinChar '\\' (O.map (bindingOf I comps)))).data =
        joinChar '\\' (O.map (bindingOf I comps)) := rfl
    rw [hdata]
    apply (matchInputPath_eq_some_iff _ _ _).mpr
    exact ⟨List.length_map O (bindingOf I comps), hvals_valid, Or.inl rfl⟩
  have hlookup2 : ∀ k ∈ O, ((O.zip (O.map (bindingOf I comps))).lookup k) =
      some (bindingOf I comps k) :=
    fun k hk => zip_map_lookup (bindingOf I comps) O hndO k hk
  have hsome2 : ∀ k ∈ I, ((O.zip (O.map (bindingOf I comps))).lookup k).isSome = true := by
    intro k hk
    rw [hlookup2 k (hIsub k hk)]
    rfl
  have h2 : transformFunction O I
      (List.asString (joinChar '\\' (O.map (bindingOf I comps)))) =
      some (List.asString (joinChar '/' comps)) := by
    rw [transformFunction_eq_some O I _ (O.map (bindingOf I comps)) hmatch2 hOne,
      filterMap_eq_map_of_isSome _ [] I hsome2]
    have hmapI : I.map (fun k => ((O.zip (O.map (bindingOf I comps))).lookup k).getD []) =
        I.map (bindingOf I comps) := by
      apply List.map_congr_left
      intro k hk
      rw [hlookup2 k (hIsub k hk)]
      rfl
    have hIback : I.map (bindingOf I comps) = comps :=
      map_zip_lookup [] I comps hnd hlen.symm
    rw [hmapI, hIback]
  have hcompsne : comps ≠ [] := by
    intro he
    apply hne
    apply List.length_eq_zero.mp
    rw [← hlen, he]
    rfl
  refine ⟨List.asString (joinChar '/' (O.map (bindingOf I comps))),
    List.asString (joinChar '/' comps), h1, ?_, ?_⟩
  · rw [hslash]
    exact h2
  · have hdata : (List.asString (joinChar '/' comps)).data = joinChar '/' comps := rfl
    rw [hdata, splitOnChar_joinChar '/' comps hcompsne
      (fun l hl c hc => ((hval l hl).2 c hc).2)]

/-- C6 witness: the theorem applied to the schema pair `([a, b], [b, a])` and
the path `x\y`, whose captured components are `x` and `y`. -/
theorem round_trip_multiset_witness :
    (["a", "b"] : List String).Nodup ∧ (["b", "a"] : List String).Perm ["a", "b"] ∧
      matchInputPath (["a", "b"] : List String).length "x\\y".data =
        some [['x'], ['y']] ∧
      ∃ d e : String,
        transformFunction ["a", "b"] ["b", "a"] "x\\y" = some d ∧
        transformFunction ["b", "a"] ["a", "b"] (slashesToBackslashes d) = some e ∧
        Multiset.ofList (splitOnChar '/' e.data) = Multiset.ofList [['x'], ['y']] :=
  ⟨by decide, by decide, by decide,
    round_trip_multiset ["a", "b"] ["b", "a"] (by decide) (by decide) "x\\y"
      [['x'], ['y']] (by decide) (by decide)⟩

/-- C6 counterexample: with input schema `[a, b]` and output schema `[b, a]`,
the path `x\y` transforms to the forward-slash-joined path `y/x`, but
re-parsing `y/x` with the swapped schema pair fails outright — the matcher of
the second transform expects backslash separators — so the original component
multiset is not reproduced. -/
theorem round_trip_cex :
    transformFunction ["a", "b"] ["b", "a"] "x\\y" = some "y/x" ∧
      transformFunction ["b", "a"] ["a", "b"] "y/x" = none :=
  ⟨rfl, rfl⟩

end Organize
